import Mathlib

/-!
Verification of the twitchspellcheck trie spell checker (src/trie.h, v1.6,
together with the spell-checker CLI).  The trie stores a dictionary of words;
`getCorrections` first tries an exact lookup of the lowercased query and
otherwise runs `fuzzySearch`, which models two error classes: duplicated
letters (collapsed onto one trie edge) and vowel interchange.

Characters are modelled as their byte codes (plain `Nat`), matching the C++
`char` values the program manipulates: 97..122 are the lowercase letters
a..z, 65..90 the uppercase letters A..Z.  Vowels are 97 'a', 101 'e',
105 'i', 111 'o', 117 'u'.
-/

/-- C++ strings, modelled as lists of character byte codes. -/
abbrev Word := List Nat

/-- C `isalpha` on the ASCII range: A..Z (65..90) or a..z (97..122). -/
def isalpha (c : Nat) : Bool := decide ((65 ≤ c ∧ c ≤ 90) ∨ (97 ≤ c ∧ c ≤ 122))

/-- C `tolower` on the ASCII range: maps A..Z to a..z, fixes everything else. -/
def tolower (c : Nat) : Nat := if 65 ≤ c ∧ c ≤ 90 then c + 32 else c

/-- `std::transform(..., ::tolower)` applied to a whole string. -/
def lowerWord (w : Word) : Word := w.map tolower

/-- `Trie::isVowel` from src/trie.h: c is one of a, e, i, o, u. -/
def isVowel (c : Nat) : Bool := decide (c = 97 ∨ c = 101 ∨ c = 105 ∨ c = 111 ∨ c = 117)

/-- Lowercase alphabetic character (a..z). -/
def LCChar (c : Nat) : Prop := 97 ≤ c ∧ c ≤ 122

/-- A word made of lowercase alphabetic characters only. -/
def LCWord (w : Word) : Prop := ∀ c ∈ w, LCChar c

instance : DecidablePred LCChar := fun c => by unfold LCChar; infer_instance

instance : DecidablePred LCWord := fun w => by unfold LCWord; infer_instance

/-- Modelled from the spec: `node.h` is not part of the sources, so the Node
data structure is taken from spec sections 2 to 4: a fixed-fanout tree node
with one optionally present child per letter, an `isEndpoint` flag, and the
cached `word` spelled by the path to the node.  The child slots are keyed by
the lowercase letter codes 97..122; per section 4.1 the child accessor is
case-insensitive, and non-alphabetic characters never reach this layer
(modelled as having no child). -/
inductive Node where
  | mk : (Nat → Option Node) → Bool → Word → Node

/-- The child-slot map of a node (keys are lowercase letter codes). -/
def Node.children : Node → Nat → Option Node
  | .mk f _ _ => f

/-- The endpoint flag of a node. -/
def Node.isEndpoint : Node → Bool
  | .mk _ e _ => e

/-- The cached word of a node. -/
def Node.word : Node → Word
  | .mk _ _ w => w

/-- Modelled from the spec: `Node::getChild`, the case-insensitive child
accessor of section 4.1 (`children[tolower(c) - 'a']` behaviour); absent
for non-alphabetic characters, which the spec guarantees never reach it. -/
def Node.getChild (n : Node) (c : Nat) : Option Node :=
  if isalpha c then n.children (tolower c) else none

/-- Writing into the child slot of a letter (the mutable use of `getChild`
during insertion). -/
def Node.setChild (n : Node) (c : Nat) (v : Node) : Node :=
  .mk (fun x => if x = tolower c then some v else n.children x) n.isEndpoint n.word

/-- Setting the `isEndpoint` field. -/
def Node.setEndpoint (n : Node) (e : Bool) : Node :=
  .mk n.children e n.word

/-- Setting the `word` field. -/
def Node.setWord (n : Node) (w : Word) : Node :=
  .mk n.children n.isEndpoint w

/-- A freshly constructed `Node()`: no children, not an endpoint, empty word. -/
def newNode : Node := .mk (fun _ => none) false []

/-- Walks the raw child slots along a path of (canonical, lowercase) keys. -/
def follow : Node → Word → Option Node
  | n, [] => some n
  | n, c :: p =>
    match n.children c with
    | none => none
    | some m => follow m p

/-- The null-check of `addWord`: reuse the existing child, or create a fresh
`Node` (counting it). -/
def childOrNew (o : Option Node) : Node × Nat :=
  match o with
  | none => (newNode, 1)
  | some m => (m, 0)

/-- The loop body of `Trie::addWord`: walks `word`, skipping non-alphabetic
characters, creating missing children (counting them), accumulating the
`builder` string of raw retained characters and storing it into each visited
child's `word` field, and finally marking the last visited node as an
endpoint.  Returns the updated node and the number of nodes created. -/
def insertAux : Node → Word → Word → Node × Nat
  | n, _, [] => (n.setEndpoint true, 0)
  | n, b, c :: cs =>
    if isalpha c then
      let p := childOrNew (n.getChild c)
      let b' := b ++ [c]
      let q := insertAux (p.1.setWord b') b' cs
      (n.setChild c q.1, p.2 + q.2)
    else insertAux n b cs

/-- The loop body of `Trie::search`: walks the word, skipping non-alphabetic
characters, failing on a missing child, and returns the final node's
endpoint flag. -/
def searchAux : Node → Word → Bool
  | n, [] => n.isEndpoint
  | n, c :: cs =>
    if isalpha c then
      match n.getChild c with
      | none => false
      | some m => searchAux m cs
    else searchAux n cs

/-- `Trie::fuzzySearch` from src/trie.h (v1.6).  The result-set mutation is
modelled by returning the union of the sets contributed by the branches, in
source order.  On the empty word the node's cached word is recorded iff the
node is an endpoint.  Otherwise, with c the first character: if the child for
c exists, the search continues into it with the rest; for a vowel c it
additionally continues into every existing vowel child; in both shapes a
repeated first letter (word[1] == word[0]) whose child exists is collapsed by
skipping two characters.  If the child for c is absent, only the vowel
branching (and the degenerate duplicate check) runs for vowels, and
consonants dead-end. -/
def fuzzySearch : Word → Node → Finset Word
  | [], n => if n.isEndpoint then {n.word} else ∅
  | c :: rest, n =>
    match n.getChild c with
    | some ch =>
      if isVowel c then
        fuzzySearch rest ch ∪
        (match n.getChild 97 with | some m => fuzzySearch rest m | none => ∅) ∪
        (match n.getChild 101 with | some m => fuzzySearch rest m | none => ∅) ∪
        (match n.getChild 105 with | some m => fuzzySearch rest m | none => ∅) ∪
        (match n.getChild 111 with | some m => fuzzySearch rest m | none => ∅) ∪
        (match n.getChild 117 with | some m => fuzzySearch rest m | none => ∅) ∪
        (match rest with
         | [] => ∅
         | c2 :: rest2 =>
           if c2 = c then
             match n.getChild c2 with
             | some m => fuzzySearch rest2 m
             | none => ∅
           else ∅)
      else
        fuzzySearch rest ch ∪
        (match rest with
         | [] => ∅
         | c2 :: rest2 =>
           if c2 = c then
             match n.getChild c2 with
             | some m => fuzzySearch rest2 m
             | none => ∅
           else ∅)
    | none =>
      if isVowel c then
        (match n.getChild 97 with | some m => fuzzySearch rest m | none => ∅) ∪
        (match n.getChild 101 with | some m => fuzzySearch rest m | none => ∅) ∪
        (match n.getChild 105 with | some m => fuzzySearch rest m | none => ∅) ∪
        (match n.getChild 111 with | some m => fuzzySearch rest m | none => ∅) ∪
        (match n.getChild 117 with | some m => fuzzySearch rest m | none => ∅) ∪
        (match rest with
         | [] => ∅
         | c2 :: rest2 =>
           if c2 = c then
             match n.getChild c2 with
             | some m => fuzzySearch rest2 m
             | none => ∅
           else ∅)
      else ∅

/-- The Trie: a root node plus the informational node count. -/
structure Trie where
  root : Node
  nodeCount : Nat

/-- `Trie()`: fresh root, zero node count. -/
def Trie.empty : Trie := ⟨newNode, 0⟩

/-- `Trie::addWord`. -/
def Trie.addWord (t : Trie) (w : Word) : Trie :=
  let q := insertAux t.root [] w
  ⟨q.1, t.nodeCount + q.2⟩

/-- `Trie::search`. -/
def Trie.search (t : Trie) (w : Word) : Bool := searchAux t.root w

/-- `Trie::getCorrections`: lowercase the query; on an exact hit return the
singleton of the lowercased query, otherwise run the fuzzy search from the
root. -/
def Trie.getCorrections (t : Trie) (w : Word) : Finset Word :=
  let temp := lowerWord w
  if Trie.search t temp = true then {temp} else fuzzySearch temp t.root

/-- Building a dictionary index by inserting a list of words in order. -/
def buildTrie (ws : List Word) : Trie := List.foldl Trie.addWord Trie.empty ws

section Sanity

/-- The toy dictionary of spec section 8: cat, cot, coot, dog. -/
def toyTrie : Trie :=
  buildTrie [[99, 97, 116], [99, 111, 116], [99, 111, 111, 116], [100, 111, 103]]

example : Trie.search toyTrie [99, 97, 116] = true := by decide
example : Trie.search toyTrie [99, 99, 97, 116] = false := by decide
example : Trie.getCorrections toyTrie [99, 111, 111, 116] = {[99, 111, 111, 116]} := by decide

end Sanity

/-! ### Basic character and node lemmas -/

theorem isalpha_tolower (c : Nat) : isalpha (tolower c) = isalpha c := by
  unfold tolower
  split
  · simp only [isalpha, decide_eq_decide]
    omega
  · rfl

theorem tolower_tolower (c : Nat) : tolower (tolower c) = tolower c := by
  unfold tolower
  split
  next h => split <;> omega
  next h => rfl

theorem tolower_of_LC {c : Nat} (h : LCChar c) : tolower c = c := by
  unfold tolower
  rcases h with ⟨h1, h2⟩
  split <;> omega

theorem isalpha_of_LC {c : Nat} (h : LCChar c) : isalpha c = true := by
  rcases h with ⟨h1, h2⟩
  simp only [isalpha, decide_eq_true_eq]
  omega

theorem Node.eta (n : Node) : Node.mk n.children n.isEndpoint n.word = n := by
  cases n; rfl

theorem getChild_of_LC {n : Node} {c : Nat} (h : LCChar c) :
    n.getChild c = n.children c := by
  simp [Node.getChild, isalpha_of_LC h, tolower_of_LC h]

theorem getChild_eq_some {n ch : Node} {c : Nat} (h : n.getChild c = some ch) :
    isalpha c = true ∧ n.children (tolower c) = some ch := by
  unfold Node.getChild at h
  split at h
  · exact ⟨by assumption, h⟩
  · exact absurd h (by simp)

theorem children_setChild (n v : Node) (c : Nat) (x : Nat) :
    (n.setChild c v).children x = if x = tolower c then some v else n.children x := rfl

theorem getChild_setChild_self (n v : Node) (c : Nat) (h : isalpha c = true) :
    (n.setChild c v).getChild c = some v := by
  simp [Node.getChild, Node.setChild, isalpha_tolower, h, tolower_tolower, Node.children]

theorem getChild_setChild_tolower (n v : Node) (c : Nat) (h : isalpha c = true) :
    (n.setChild c v).getChild (tolower c) = some v := by
  simp [Node.getChild, Node.setChild, isalpha_tolower, h, tolower_tolower, Node.children]

theorem follow_setWord (n : Node) (w : Word) (c : Nat) (p : Word) :
    follow (n.setWord w) (c :: p) = follow n (c :: p) := rfl

theorem follow_setEndpoint (n : Node) (e : Bool) (c : Nat) (p : Word) :
    follow (n.setEndpoint e) (c :: p) = follow n (c :: p) := rfl

theorem follow_cons {n m : Node} {c : Nat} {p : Word}
    (h : follow n (c :: p) = some m) :
    ∃ n1, n.children c = some n1 ∧ follow n1 p = some m := by
  unfold follow at h
  split at h
  · exact absurd h (by simp)
  · exact ⟨_, by assumption, h⟩

theorem follow_cons_of {n n1 : Node} {c : Nat} {p : Word}
    (h : n.children c = some n1) : follow n (c :: p) = follow n1 p := by
  simp only [follow, h]

/-- The insertion loop never changes the word field of the node it starts at. -/
theorem insertAux_word (w : Word) : ∀ (n : Node) (b : Word),
    (insertAux n b w).1.word = n.word := by
  induction w with
  | nil => intro n b; rfl
  | cons c cs ih =>
      intro n b
      unfold insertAux
      split
      · rfl
      · exact ih n b

/-- The insertion loop never changes the endpoint flag of an intermediate
node except by setting it. -/
theorem insertAux_endpoint (w : Word) : ∀ (n : Node) (b : Word),
    n.isEndpoint = true → (insertAux n b w).1.isEndpoint = true := by
  induction w with
  | nil => intro n b _; rfl
  | cons c cs ih =>
      intro n b h
      unfold insertAux
      split
      · exact h
      · exact ih n b h

/-! ### Exact lookup after insertion (round-trip) -/

/-- After running the insertion loop on any word, the exact-search loop
succeeds on the lowercased word, starting from the updated node. -/
theorem searchAux_insertAux (w : Word) : ∀ (n : Node) (b : Word),
    searchAux (insertAux n b w).1 (lowerWord w) = true := by
  induction w with
  | nil => intro n b; rfl
  | cons c cs ih =>
      intro n b
      simp only [insertAux, lowerWord, List.map_cons]
      split
      next halpha =>
        simp only [searchAux, isalpha_tolower, halpha, if_pos]
        rw [getChild_setChild_tolower _ _ _ halpha]
        exact ih _ _
      next halpha =>
        simp only [searchAux, isalpha_tolower]
        rw [if_neg (by simpa using halpha)]
        exact ih n b

/-- Claim C5: for every word w and every index state, after `addWord w` the
query `search (lowercase w)` returns true. -/
theorem insert_then_contains (t : Trie) (w : Word) :
    Trie.search (Trie.addWord t w) (lowerWord w) = true :=
  searchAux_insertAux w t.root []

/-! ### Exact-match short-circuit -/

/-- Claim C3: if the lowercased word is in the dictionary, `getCorrections`
returns exactly the singleton of the lowercased word. -/
theorem exact_match_short_circuit (t : Trie) (w : Word)
    (h : Trie.search t (lowerWord w) = true) :
    Trie.getCorrections t w = {lowerWord w} := by
  simp [Trie.getCorrections, h]

/-- Witness for C3 on the dictionary {cat} and the mixed-case query Cat. -/
theorem exact_match_short_circuit_witness :
    Trie.search (buildTrie [[99, 97, 116]]) (lowerWord [67, 97, 116]) = true ∧
      Trie.getCorrections (buildTrie [[99, 97, 116]]) [67, 97, 116] =
        {lowerWord [67, 97, 116]} :=
  ⟨by decide, exact_match_short_circuit (buildTrie [[99, 97, 116]]) [67, 97, 116] (by decide)⟩

/-! ### Idempotent re-insertion -/

theorem setEndpoint_setEndpoint (n : Node) (e e' : Bool) :
    (n.setEndpoint e).setEndpoint e' = n.setEndpoint e' := rfl

theorem childOrNew_some (m : Node) : childOrNew (some m) = (m, 0) := rfl

theorem setWord_self {n : Node} {w : Word} (h : n.word = w) : n.setWord w = n := by
  cases n with
  | mk f e w0 =>
      simp only [Node.word] at h
      simp [Node.setWord, Node.children, Node.isEndpoint, h]

theorem setChild_setChild (n : Node) (c : Nat) (v v' : Node) :
    (n.setChild c v).setChild c v' = n.setChild c v' := by
  simp only [Node.setChild, Node.children, Node.isEndpoint, Node.word]
  congr 1
  funext x
  by_cases hx : x = tolower c <;> simp [hx]

/-- Re-running the insertion loop on the node it just produced changes
nothing and creates no nodes. -/
theorem insertAux_idem (w : Word) : ∀ (n : Node) (b : Word),
    insertAux (insertAux n b w).1 b w = ((insertAux n b w).1, 0) := by
  induction w with
  | nil =>
      intro n b
      simp [insertAux, setEndpoint_setEndpoint]
  | cons c cs ih =>
      intro n b
      by_cases halpha : isalpha c = true
      · simp only [insertAux, halpha, if_pos]
        rw [getChild_setChild_self _ _ _ halpha, childOrNew_some]
        have hword : (insertAux
            ((childOrNew (n.getChild c)).1.setWord (b ++ [c])) (b ++ [c]) cs).1.word
              = b ++ [c] := by
          rw [insertAux_word]
          rfl
        rw [setWord_self hword, ih, setChild_setChild]
        rfl
      · simp only [insertAux, halpha]
        exact ih n b

/-- Claim C6 (amended): immediately re-inserting the same word leaves the
whole index value, and hence every `search` result, every `getCorrections`
result and the node count, unchanged. -/
theorem addWord_idempotent (t : Trie) (w : Word) :
    Trie.addWord (Trie.addWord t w) w = Trie.addWord t w := by
  simp [Trie.addWord, insertAux_idem]

/-- Counterexample for C6 as stated: in the state built by inserting ab and
then its case variant aB (a state in which ab has already been inserted),
re-inserting ab changes the result of the correction query for abb: the
cached word at the shared path was aB and is rewritten to ab. -/
theorem reinsert_changes_corrections :
    ¬ (Trie.getCorrections
        (Trie.addWord (buildTrie [[97, 98], [97, 66]]) [97, 98]) [97, 98, 98] =
       Trie.getCorrections (buildTrie [[97, 98], [97, 66]]) [97, 98, 98]) := by
  decide

/-! ### Empty input -/

/-- Claim C8 (amended): in any index state whose root is not an endpoint,
`getCorrections ""` returns the empty set; and in every state `addWord ""`
does not fail, creates no nodes, and only marks the root as an endpoint. -/
theorem empty_input (t : Trie) :
    (t.root.isEndpoint = false → Trie.getCorrections t [] = ∅) ∧
      Trie.addWord t [] = ⟨t.root.setEndpoint true, t.nodeCount⟩ := by
  refine ⟨fun h => ?_, rfl⟩
  simp [Trie.getCorrections, Trie.search, lowerWord, searchAux, h, fuzzySearch]

/-- Witness for C8 on the toy dictionary, discharging the root-not-endpoint
hypothesis of the corrections conjunct concretely. -/
theorem empty_input_witness :
    toyTrie.root.isEndpoint = false ∧
      Trie.getCorrections toyTrie [] = ∅ ∧
      Trie.addWord toyTrie [] = ⟨toyTrie.root.setEndpoint true, toyTrie.nodeCount⟩ :=
  ⟨by decide, (empty_input toyTrie).1 (by decide), (empty_input toyTrie).2⟩

/-- Counterexample for C8 as stated: in the index state reached by inserting
the empty word, the root is an endpoint, so the correction query for the
empty word exact-matches and returns the singleton of the empty word, not
the empty set. -/
theorem empty_query_not_always_empty :
    ¬ (Trie.getCorrections (Trie.addWord (buildTrie []) []) [] = ∅) := by
  decide

/-! ### Monotonicity of the fuzzy-search branches -/

theorem fuzzySearch_nil (n : Node) :
    fuzzySearch [] n = if n.isEndpoint then {n.word} else ∅ := rfl

/-- One-step unfolding of `fuzzySearch` on a non-empty word. -/
theorem fuzzySearch_cons (c : Nat) (rest : Word) (n : Node) :
    fuzzySearch (c :: rest) n =
      match n.getChild c with
      | some ch =>
        if isVowel c then
          fuzzySearch rest ch ∪
          (match n.getChild 97 with | some m => fuzzySearch rest m | none => ∅) ∪
          (match n.getChild 101 with | some m => fuzzySearch rest m | none => ∅) ∪
          (match n.getChild 105 with | some m => fuzzySearch rest m | none => ∅) ∪
          (match n.getChild 111 with | some m => fuzzySearch rest m | none => ∅) ∪
          (match n.getChild 117 with | some m => fuzzySearch rest m | none => ∅) ∪
          (match rest with
           | [] => ∅
           | c2 :: rest2 =>
             if c2 = c then
               match n.getChild c2 with
               | some m => fuzzySearch rest2 m
               | none => ∅
             else ∅)
        else
          fuzzySearch rest ch ∪
          (match rest with
           | [] => ∅
           | c2 :: rest2 =>
             if c2 = c then
               match n.getChild c2 with
               | some m => fuzzySearch rest2 m
               | none => ∅
             else ∅)
      | none =>
        if isVowel c then
          (match n.getChild 97 with | some m => fuzzySearch rest m | none => ∅) ∪
          (match n.getChild 101 with | some m => fuzzySearch rest m | none => ∅) ∪
          (match n.getChild 105 with | some m => fuzzySearch rest m | none => ∅) ∪
          (match n.getChild 111 with | some m => fuzzySearch rest m | none => ∅) ∪
          (match n.getChild 117 with | some m => fuzzySearch rest m | none => ∅) ∪
          (match rest with
           | [] => ∅
           | c2 :: rest2 =>
             if c2 = c then
               match n.getChild c2 with
               | some m => fuzzySearch rest2 m
               | none => ∅
             else ∅)
        else ∅ := by
  cases rest <;> cases hg : n.getChild c <;> simp only [fuzzySearch, hg]

theorem children_setChild_key (n v : Node) (c : Nat) :
    (n.setChild c v).children (tolower c) = some v := by
  rw [children_setChild, if_pos rfl]

theorem children_setChild_ne (n v : Node) (c x : Nat) (h : x ≠ tolower c) :
    (n.setChild c v).children x = n.children x := by
  rw [children_setChild, if_neg h]

theorem isEndpoint_setChild (n v : Node) (c : Nat) :
    (n.setChild c v).isEndpoint = n.isEndpoint := rfl

theorem isEndpoint_setWord (n : Node) (b : Word) :
    (n.setWord b).isEndpoint = n.isEndpoint := rfl

theorem word_setChild (n v : Node) (c : Nat) :
    (n.setChild c v).word = n.word := rfl

/-- The master invariant of an index built from lowercase alphabetic
insertions, relative to the prefix `pre` spelled by the path from the root to
n: every reachable path below n is lowercase alphabetic, and every endpoint
node reached over path p caches exactly pre ++ p, which is a dictionary
word of S. -/
def Built (n : Node) (pre : Word) (S : List Word) : Prop :=
  ∀ p m, follow n p = some m →
    LCWord p ∧ (m.isEndpoint = true → m.word = pre ++ p ∧ m.word ∈ S)

theorem built_newNode (pre : Word) (S : List Word) : Built newNode pre S := by
  intro p m hf
  cases p with
  | nil =>
      simp only [follow] at hf
      cases hf
      refine ⟨fun x hx => absurd hx (List.not_mem_nil x), fun hep => ?_⟩
      simp [newNode, Node.isEndpoint] at hep
  | cons c p' =>
      obtain ⟨n1, hch, _⟩ := follow_cons hf
      simp [newNode, Node.children] at hch

/-- Inserting a lowercase alphabetic word preserves the invariant, with the
inserted word joining the dictionary. -/
theorem built_insert (w : Word) : ∀ (n : Node) (pre : Word) (S : List Word),
    Built n pre S → n.word = pre → LCWord w →
    Built (insertAux n pre w).1 pre (S ++ [pre ++ w]) := by
  induction w with
  | nil =>
      intro n pre S hb hword _
      intro p m hf
      cases p with
      | nil =>
          simp only [insertAux, follow] at hf
          cases hf
          refine ⟨fun x hx => absurd hx (List.not_mem_nil x), fun _ => ?_⟩
          have hw : (n.setEndpoint true).word = pre := hword
          refine ⟨by simpa using hw, ?_⟩
          rw [hw]
          simp
      | cons c p' =>
          simp only [insertAux] at hf
          rw [follow_setEndpoint] at hf
          obtain ⟨hlc, h2⟩ := hb _ _ hf
          exact ⟨hlc, fun hep => ⟨(h2 hep).1, List.mem_append_left _ (h2 hep).2⟩⟩
  | cons c cs ih =>
      intro n pre S hb hword hlcw
      have hc : LCChar c := hlcw c (List.mem_cons_self _ _)
      have halpha := isalpha_of_LC hc
      have htl : tolower c = c := tolower_of_LC hc
      have hlccs : LCWord cs := fun x hx => hlcw x (List.mem_cons_of_mem _ hx)
      simp only [insertAux, halpha, if_pos]
      have hchild1 : Built ((childOrNew (n.getChild c)).1.setWord (pre ++ [c]))
          (pre ++ [c]) S := by
        cases hgc : n.getChild c with
        | some ch =>
            show Built (ch.setWord (pre ++ [c])) (pre ++ [c]) S
            have hchn : n.children c = some ch := by
              rw [← getChild_of_LC hc]; exact hgc
            intro p m hf
            cases p with
            | nil =>
                simp only [follow] at hf
                cases hf
                refine ⟨fun x hx => absurd hx (List.not_mem_nil x), fun hep => ?_⟩
                have hepch : ch.isEndpoint = true := by
                  rwa [isEndpoint_setWord] at hep
                have hfch : follow n [c] = some ch := by
                  rw [follow_cons_of hchn]; rfl
                obtain ⟨_, h2⟩ := hb _ _ hfch
                obtain ⟨hwch, hmem⟩ := h2 hepch
                have hwnew : (ch.setWord (pre ++ [c])).word = pre ++ [c] := rfl
                exact ⟨by simpa using hwnew, by rw [hwnew, ← hwch]; exact hmem⟩
            | cons x p' =>
                rw [follow_setWord] at hf
                have hfn : follow n (c :: x :: p') = some m := by
                  rw [follow_cons_of hchn]; exact hf
                obtain ⟨hlcp, h2⟩ := hb _ _ hfn
                refine ⟨fun y hy => hlcp y (List.mem_cons_of_mem _ hy), fun hep => ?_⟩
                obtain ⟨hw, hmem⟩ := h2 hep
                exact ⟨by rw [hw]; simp, hmem⟩
        | none =>
            show Built (newNode.setWord (pre ++ [c])) (pre ++ [c]) S
            intro p m hf
            cases p with
            | nil =>
                simp only [follow] at hf
                cases hf
                refine ⟨fun x hx => absurd hx (List.not_mem_nil x), fun hep => ?_⟩
                simp [newNode, Node.setWord, Node.isEndpoint] at hep
            | cons x p' =>
                obtain ⟨n1, hch, _⟩ := follow_cons hf
                simp [newNode, Node.setWord, Node.children] at hch
      have hbq : Built (insertAux ((childOrNew (n.getChild c)).1.setWord (pre ++ [c]))
          (pre ++ [c]) cs).1 (pre ++ [c]) (S ++ [(pre ++ [c]) ++ cs]) :=
        ih _ _ _ hchild1 rfl hlccs
      intro p m hf
      cases p with
      | nil =>
          simp only [follow] at hf
          cases hf
          refine ⟨fun x hx => absurd hx (List.not_mem_nil x), fun hep => ?_⟩
          have hepn : n.isEndpoint = true := by rwa [isEndpoint_setChild] at hep
          obtain ⟨_, h2⟩ := hb [] n rfl
          obtain ⟨hw, hmem⟩ := h2 hepn
          simp only [word_setChild]
          exact ⟨hw, List.mem_append_left _ hmem⟩
      | cons x p' =>
          obtain ⟨n1, hch, hf'⟩ := follow_cons hf
          by_cases hx : x = c
          · subst hx
            have : n1 = (insertAux ((childOrNew (n.getChild x)).1.setWord (pre ++ [x]))
                (pre ++ [x]) cs).1 := by
              rw [children_setChild, htl, if_pos rfl] at hch
              exact (Option.some.inj hch).symm
            subst this
            obtain ⟨hlcp, h2⟩ := hbq _ _ hf'
            refine ⟨?_, fun hep => ?_⟩
            · intro y hy
              rcases List.mem_cons.mp hy with rfl | hy
              · exact hc
              · exact hlcp y hy
            · obtain ⟨hw, hmem⟩ := h2 hep
              constructor
              · rw [hw]; simp
              · revert hmem
                simp [List.append_assoc]
          · have hxne : x ≠ tolower c := by rwa [htl]
            rw [children_setChild_ne n _ c x hxne] at hch
            have hfn : follow n (x :: p') = some m := by
              rw [follow_cons_of hch]; exact hf'
            obtain ⟨hlcp, h2⟩ := hb _ _ hfn
            exact ⟨hlcp, fun hep => ⟨(h2 hep).1, List.mem_append_left _ (h2 hep).2⟩⟩

/-! ### Lifting the invariants along a build -/

theorem addWord_root (t : Trie) (w : Word) :
    (Trie.addWord t w).root = (insertAux t.root [] w).1 := rfl

theorem built_fold (ws : List Word) : ∀ (t : Trie) (S : List Word),
    Built t.root [] S → t.root.word = [] → (∀ w ∈ ws, LCWord w) →
    Built (List.foldl Trie.addWord t ws).root [] (S ++ ws) := by
  induction ws with
  | nil =>
      intro t S hb _ _
      simpa using hb
  | cons w ws ih =>
      intro t S hb hw hlc
      have h1 : Built (Trie.addWord t w).root [] (S ++ [w]) := by
        rw [addWord_root]
        simpa using built_insert w t.root [] S hb hw (hlc w (List.mem_cons_self _ _))
      have h2 : (Trie.addWord t w).root.word = [] := by
        rw [addWord_root, insertAux_word]
        exact hw
      have h3 := ih (Trie.addWord t w) (S ++ [w]) h1 h2
        (fun x hx => hlc x (List.mem_cons_of_mem _ hx))
      simpa [List.append_assoc] using h3

/-- The master invariant holds of every index built from lowercase
alphabetic insertions, with the inserted words as the dictionary. -/
theorem built_buildTrie (ws : List Word) (hws : ∀ w ∈ ws, LCWord w) :
    Built (buildTrie ws).root [] ws := by
  have h := built_fold ws Trie.empty [] (built_newNode [] []) rfl hws
  simpa using h

/-- Claim C7 (amended): in every index state built by lowercase alphabetic
insertions, every node reached by a non-empty letter path p whose endpoint
flag is set caches exactly the word p, and p consists of lowercase letters. -/
theorem endpoint_word_eq_path (ws : List Word) (hws : ∀ w ∈ ws, LCWord w)
    (p : Word) (m : Node) (hf : follow (buildTrie ws).root p = some m)
    (_hne : p ≠ []) (hep : m.isEndpoint = true) :
    m.word = p ∧ LCWord p := by
  obtain ⟨hlc, h2⟩ := built_buildTrie ws hws p m hf
  exact ⟨by simpa using (h2 hep).1, hlc⟩

/-- Witness for C7 (amended) on the dictionary {cat} and the path cat. -/
theorem endpoint_word_eq_path_witness :
    ∃ m, follow (buildTrie [[99, 97, 116]]).root [99, 97, 116] = some m ∧
      m.isEndpoint = true ∧ m.word = [99, 97, 116] ∧ LCWord [99, 97, 116] := by
  have hs : (follow (buildTrie [[99, 97, 116]]).root [99, 97, 116]).isSome = true := rfl
  refine ⟨(follow (buildTrie [[99, 97, 116]]).root [99, 97, 116]).get hs,
    (Option.some_get hs).symm, rfl, ?_⟩
  have := endpoint_word_eq_path [[99, 97, 116]] (by decide) [99, 97, 116]
    ((follow (buildTrie [[99, 97, 116]]).root [99, 97, 116]).get hs)
    (Option.some_get hs).symm (by decide) rfl
  exact ⟨this.1, this.2⟩

/-- Counterexample for C7 as stated: inserting the single mixed-case word A
stores the raw character A in the word field of the node at letter path a,
so the endpoint node's word differs from its path. -/
theorem endpoint_word_can_differ_from_path :
    ¬ (∀ p m, follow (buildTrie [[65]]).root p = some m → p ≠ [] →
        m.isEndpoint = true → m.word = p ∧ LCWord p) := by
  intro h
  have hs : (follow (buildTrie [[65]]).root [97]).isSome = true := rfl
  have := h [97] ((follow (buildTrie [[65]]).root [97]).get hs)
    (Option.some_get hs).symm (by simp) rfl
  have hw : ((follow (buildTrie [[65]]).root [97]).get hs).word = [65] := rfl
  rw [hw] at this
  exact absurd this.1 (by decide)

/-! ### Soundness of the fuzzy search -/

theorem mem_optMatch {o : Option Node} {rest : Word} {r : Word}
    (h : r ∈ (match o with
      | some m => fuzzySearch rest m
      | none => (∅ : Finset Word))) :
    ∃ ch, o = some ch ∧ r ∈ fuzzySearch rest ch := by
  cases o with
  | some m => exact ⟨m, rfl, h⟩
  | none => simp at h

theorem fuzzy_sound_nil {n : Node} {r : Word} (hr : r ∈ fuzzySearch [] n) :
    n.isEndpoint = true ∧ n.word = r := by
  rw [fuzzySearch_nil] at hr
  by_cases hep : n.isEndpoint = true
  · rw [if_pos hep] at hr
    simp only [Finset.mem_singleton] at hr
    exact ⟨hep, hr.symm⟩
  · rw [if_neg hep] at hr
    simp at hr

/-- Whatever the fuzzy search returns is the cached word of an endpoint node
reached by a raw path no longer than the query: the search only ever
descends into children that exist, consuming at least one query character
per edge, and records words only at endpoints. -/
theorem fuzzy_sound_aux (k : Nat) : ∀ (q : Word), q.length ≤ k →
    ∀ (n : Node) (r : Word), r ∈ fuzzySearch q n →
    ∃ p m, p.length ≤ q.length ∧ follow n p = some m ∧ m.isEndpoint = true ∧
      m.word = r := by
  induction k with
  | zero =>
      intro q hq n r hr
      have hq0 : q = [] := List.eq_nil_of_length_eq_zero (Nat.le_zero.mp hq)
      subst hq0
      obtain ⟨hep, hw⟩ := fuzzy_sound_nil hr
      exact ⟨[], n, by simp, rfl, hep, hw⟩
  | succ k ih =>
      intro q hq n r hr
      cases q with
      | nil =>
          obtain ⟨hep, hw⟩ := fuzzy_sound_nil hr
          exact ⟨[], n, by simp, rfl, hep, hw⟩
      | cons c rest =>
          have hrest : rest.length ≤ k := by simp at hq; omega
          rw [fuzzySearch_cons] at hr
          have step : ∀ (x : Nat) (ch : Node), n.children x = some ch →
              r ∈ fuzzySearch rest ch →
              ∃ p m, p.length ≤ (c :: rest).length ∧ follow n p = some m ∧
                m.isEndpoint = true ∧ m.word = r := by
            intro x ch hx hrx
            obtain ⟨p, m, hlen, hf, hep, hw⟩ := ih rest hrest ch r hrx
            refine ⟨x :: p, m, by simp at hlen ⊢; omega, ?_, hep, hw⟩
            rw [follow_cons_of hx]
            exact hf
          have vstep : ∀ (v : Nat), tolower v = v →
              r ∈ (match n.getChild v with
                | some m => fuzzySearch rest m
                | none => (∅ : Finset Word)) →
              ∃ p m, p.length ≤ (c :: rest).length ∧ follow n p = some m ∧
                m.isEndpoint = true ∧ m.word = r := by
            intro v htv hrv
            obtain ⟨ch2, hg2, hr2⟩ := mem_optMatch hrv
            have hcv := (getChild_eq_some hg2).2
            rw [htv] at hcv
            exact step v ch2 hcv hr2
          have dstep : r ∈ (match rest with
              | [] => (∅ : Finset Word)
              | c2 :: rest2 =>
                if c2 = c then
                  match n.getChild c2 with
                  | some m => fuzzySearch rest2 m
                  | none => ∅
                else ∅) →
              ∃ p m, p.length ≤ (c :: rest).length ∧ follow n p = some m ∧
                m.isEndpoint = true ∧ m.word = r := by
            intro hdup
            cases rest with
            | nil => simp at hdup
            | cons c2 rest2 =>
                simp only [] at hdup
                by_cases hc2 : c2 = c
                · rw [if_pos hc2] at hdup
                  obtain ⟨ch2, hg2, hr2⟩ := mem_optMatch hdup
                  obtain ⟨p, m, hlen, hf, hep, hw⟩ :=
                    ih rest2 (by simp at hq; omega) ch2 r hr2
                  refine ⟨tolower c2 :: p, m, by simp at hlen ⊢; omega, ?_, hep, hw⟩
                  rw [follow_cons_of (getChild_eq_some hg2).2]
                  exact hf
                · rw [if_neg hc2] at hdup
                  simp at hdup
          cases hg : n.getChild c with
          | some ch =>
              rw [hg] at hr
              simp only [] at hr
              have hcc := (getChild_eq_some hg).2
              by_cases hv : isVowel c = true
              · rw [if_pos hv] at hr
                simp only [Finset.mem_union] at hr
                rcases hr with ((((((hr | hr) | hr) | hr) | hr) | hr) | hr)
                · exact step (tolower c) ch hcc hr
                · exact vstep 97 (by decide) hr
                · exact vstep 101 (by decide) hr
                · exact vstep 105 (by decide) hr
                · exact vstep 111 (by decide) hr
                · exact vstep 117 (by decide) hr
                · exact dstep hr
              · rw [if_neg hv] at hr
                simp only [Finset.mem_union] at hr
                rcases hr with hr | hr
                · exact step (tolower c) ch hcc hr
                · exact dstep hr
          | none =>
              rw [hg] at hr
              simp only [] at hr
              by_cases hv : isVowel c = true
              · rw [if_pos hv] at hr
                simp only [Finset.mem_union] at hr
                rcases hr with (((((hr | hr) | hr) | hr) | hr) | hr)
                · exact vstep 97 (by decide) hr
                · exact vstep 101 (by decide) hr
                · exact vstep 105 (by decide) hr
                · exact vstep 111 (by decide) hr
                · exact vstep 117 (by decide) hr
                · exact dstep hr
              · rw [if_neg hv] at hr
                simp at hr

theorem fuzzy_sound {q : Word} {n : Node} {r : Word} (hr : r ∈ fuzzySearch q n) :
    ∃ p m, p.length ≤ q.length ∧ follow n p = some m ∧ m.isEndpoint = true ∧
      m.word = r :=
  fuzzy_sound_aux q.length q (le_refl _) n r hr

/-! ### Claim C4: everything returned is a dictionary hit -/

theorem word_setEndpoint (n : Node) (e : Bool) : (n.setEndpoint e).word = n.word := rfl

/-- An endpoint node reachable over a lowercase path is found by `search` on
that path. -/
theorem search_of_follow : ∀ (p : Word) (n m : Node), LCWord p →
    follow n p = some m → m.isEndpoint = true → searchAux n p = true := by
  intro p
  induction p with
  | nil =>
      intro n m _ hf hep
      simp only [follow] at hf
      cases hf
      exact hep
  | cons c p' ih =>
      intro n m hlc hf hep
      obtain ⟨n1, hch, hf'⟩ := follow_cons hf
      have hc := hlc c (List.mem_cons_self _ _)
      simp only [searchAux, isalpha_of_LC hc, if_pos]
      rw [getChild_of_LC hc, hch]
      exact ih n1 m (fun x hx => hlc x (List.mem_cons_of_mem _ hx)) hf' hep

/-- Claim C4: for an index built from lowercase alphabetic insertions, every
string returned by `getCorrections` satisfies `search` (and is either an
inserted dictionary word or, in the exact-match branch, the lowercased query
itself). -/
theorem corrections_sound (ws : List Word) (hws : ∀ w ∈ ws, LCWord w)
    (q r : Word) (hr : r ∈ Trie.getCorrections (buildTrie ws) q) :
    Trie.search (buildTrie ws) r = true ∧ (r ∈ ws ∨ r = lowerWord q) := by
  simp only [Trie.getCorrections] at hr
  by_cases hs : Trie.search (buildTrie ws) (lowerWord q) = true
  · rw [if_pos hs] at hr
    simp only [Finset.mem_singleton] at hr
    subst hr
    exact ⟨hs, Or.inr rfl⟩
  · rw [if_neg hs] at hr
    obtain ⟨p, m, hlen, hf, hep, hw⟩ := fuzzy_sound hr
    obtain ⟨hlcp, h2⟩ := built_buildTrie ws hws p m hf
    obtain ⟨hword, hmem⟩ := h2 hep
    have hrp : r = p := by rw [← hw, hword]; simp
    refine ⟨?_, Or.inl (hw ▸ hmem)⟩
    subst hrp
    exact search_of_follow r _ m hlcp hf hep

/-- Witness for C4 on the dictionary {cat} and the query cit. -/
theorem corrections_sound_witness :
    (∀ w ∈ ([[99, 97, 116]] : List Word), LCWord w) ∧
      [99, 97, 116] ∈ Trie.getCorrections (buildTrie [[99, 97, 116]]) [99, 105, 116] ∧
      (Trie.search (buildTrie [[99, 97, 116]]) [99, 97, 116] = true ∧
        ([99, 97, 116] ∈ ([[99, 97, 116]] : List Word) ∨
          [99, 97, 116] = lowerWord [99, 105, 116])) :=
  ⟨by decide, by decide,
    corrections_sound [[99, 97, 116]] (by decide) [99, 105, 116] [99, 97, 116] (by decide)⟩

/-! ### Claim C10: results never exceed the query length -/

/-- The length invariant: at depth k below the root, every reachable node
caches a word of length exactly k plus the residual path length.  This holds
for arbitrary (even mixed-case or non-alphabetic) insertion histories. -/
def BuiltLen (n : Node) (k : Nat) : Prop :=
  ∀ p m, follow n p = some m → m.word.length = k + p.length

theorem builtLen_newNode : BuiltLen newNode 0 := by
  intro p m hf
  cases p with
  | nil =>
      simp only [follow] at hf
      cases hf
      rfl
  | cons c p' =>
      obtain ⟨n1, hch, _⟩ := follow_cons hf
      simp [newNode, Node.children] at hch

theorem builtLen_insert (w : Word) : ∀ (n : Node) (b : Word),
    BuiltLen n b.length → BuiltLen (insertAux n b w).1 b.length := by
  induction w with
  | nil =>
      intro n b hb p m hf
      cases p with
      | nil =>
          simp only [insertAux, follow] at hf
          cases hf
          simpa [word_setEndpoint] using hb [] n rfl
      | cons c p' =>
          simp only [insertAux] at hf
          rw [follow_setEndpoint] at hf
          exact hb _ _ hf
  | cons c cs ih =>
      intro n b hb
      by_cases halpha : isalpha c = true
      · simp only [insertAux, halpha, if_pos]
        have hchild1 : BuiltLen ((childOrNew (n.getChild c)).1.setWord (b ++ [c]))
            (b ++ [c]).length := by
          cases hgc : n.getChild c with
          | some ch =>
              show BuiltLen (ch.setWord (b ++ [c])) (b ++ [c]).length
              intro p m hf
              cases p with
              | nil =>
                  simp only [follow] at hf
                  cases hf
                  simp [Node.setWord, Node.word]
              | cons x p' =>
                  rw [follow_setWord] at hf
                  have hchn : n.children (tolower c) = some ch := (getChild_eq_some hgc).2
                  have hfn : follow n (tolower c :: x :: p') = some m := by
                    rw [follow_cons_of hchn]
                    exact hf
                  have := hb _ _ hfn
                  simp at this ⊢
                  omega
          | none =>
              show BuiltLen (newNode.setWord (b ++ [c])) (b ++ [c]).length
              intro p m hf
              cases p with
              | nil =>
                  simp only [follow] at hf
                  cases hf
                  simp [Node.setWord, Node.word]
              | cons x p' =>
                  obtain ⟨n1, hch, _⟩ := follow_cons hf
                  simp [newNode, Node.setWord, Node.children] at hch
        have hbq := ih _ _ hchild1
        intro p m hf
        cases p with
        | nil =>
            simp only [follow] at hf
            cases hf
            simpa [word_setChild] using hb [] n rfl
        | cons x p' =>
            obtain ⟨n1, hch, hf'⟩ := follow_cons hf
            by_cases hx : x = tolower c
            · subst hx
              rw [children_setChild_key] at hch
              cases hch
              have := hbq _ _ hf'
              simp at this ⊢
              omega
            · rw [children_setChild_ne n _ c x hx] at hch
              have hfn : follow n (x :: p') = some m := by
                rw [follow_cons_of hch]
                exact hf'
              exact hb _ _ hfn
      · simp only [insertAux, halpha]
        exact ih n b hb

theorem builtLen_fold (ws : List Word) : ∀ (t : Trie), BuiltLen t.root 0 →
    BuiltLen (List.foldl Trie.addWord t ws).root 0 := by
  induction ws with
  | nil =>
      intro t h
      simpa using h
  | cons w ws ih =>
      intro t h
      apply ih
      rw [addWord_root]
      exact builtLen_insert w t.root [] h

/-- Claim C10: every suggestion returned by `getCorrections` is at most as
long as the query, in every index built by insertions. -/
theorem corrections_length_le (ws : List Word) (q r : Word)
    (hr : r ∈ Trie.getCorrections (buildTrie ws) q) : r.length ≤ q.length := by
  simp only [Trie.getCorrections] at hr
  by_cases hs : Trie.search (buildTrie ws) (lowerWord q) = true
  · rw [if_pos hs] at hr
    simp only [Finset.mem_singleton] at hr
    subst hr
    simp [lowerWord]
  · rw [if_neg hs] at hr
    obtain ⟨p, m, hlen, hf, hep, hw⟩ := fuzzy_sound hr
    have hbl : BuiltLen (buildTrie ws).root 0 :=
      builtLen_fold ws Trie.empty builtLen_newNode
    have hlw := hbl p m hf
    rw [hw] at hlw
    simp [lowerWord] at hlen
    omega

/-- Witness for C10 on the dictionary {cat} and the query cit. -/
theorem corrections_length_le_witness :
    [99, 97, 116] ∈ Trie.getCorrections (buildTrie [[99, 97, 116]]) [99, 105, 116] ∧
      ([99, 97, 116] : Word).length ≤ ([99, 105, 116] : Word).length :=
  ⟨by decide,
    corrections_length_le [[99, 97, 116]] [99, 105, 116] [99, 97, 116] (by decide)⟩

/-! ### Claim C2: the ccat scenario -/

/-- Counterexample for C2 as stated: on the toy dictionary, the corrections
of ccat are not the singleton {cat}. -/
theorem corrections_ccat_ne_singleton :
    ¬ (Trie.getCorrections toyTrie [99, 99, 97, 116] = {[99, 97, 116]}) := by
  decide

/-- Claim C2 (amended): on the toy dictionary {cat, cot, coot, dog}, the
corrections of ccat are exactly {cat, cot}: after the duplicate c collapses,
the vowel position branches to both the a child and the o child. -/
theorem corrections_ccat :
    Trie.getCorrections toyTrie [99, 99, 97, 116] = {[99, 97, 116], [99, 111, 116]} := by
  decide

/-! ### Claim C9: the recursive call structure of the fuzzy search -/

/-- A single conditional recursive call site of `fuzzySearch`: the call made
into a child when it exists. -/
def childCall (o : Option Node) (rest : Word) : List (Word × Node) :=
  match o with
  | some m => [(rest, m)]
  | none => []

/-- The duplicate-collapse call site of `fuzzySearch`: made only when the
word has a second character equal to the first and the child exists, and
receiving the suffix from position 2. -/
def dupCall (n : Node) (c : Nat) (rest : Word) : List (Word × Node) :=
  match rest with
  | [] => []
  | c2 :: rest2 => if c2 = c then childCall (n.getChild c2) rest2 else []

/-- The list of recursive calls `(remaining, node)` that `fuzzySearch` makes
from a given word and node, in source order: the exact continuation when the
first character's child exists, the five vowel-substitution calls when the
first character is a vowel, and the duplicate-collapse call. -/
def fuzzyCalls : Word → Node → List (Word × Node)
  | [], _ => []
  | c :: rest, n =>
    match n.getChild c with
    | some ch =>
      if isVowel c then
        (rest, ch) ::
          (childCall (n.getChild 97) rest ++ childCall (n.getChild 101) rest ++
            childCall (n.getChild 105) rest ++ childCall (n.getChild 111) rest ++
            childCall (n.getChild 117) rest ++ dupCall n c rest)
      else (rest, ch) :: dupCall n c rest
    | none =>
      if isVowel c then
        childCall (n.getChild 97) rest ++ childCall (n.getChild 101) rest ++
          childCall (n.getChild 105) rest ++ childCall (n.getChild 111) rest ++
          childCall (n.getChild 117) rest ++ dupCall n c rest
      else []

theorem mem_childCall {o : Option Node} {rest : Word} {pr : Word × Node}
    (h : pr ∈ childCall o rest) : pr.1 = rest := by
  cases o with
  | some m =>
      simp only [childCall, List.mem_singleton] at h
      rw [h]
  | none => simp [childCall] at h

theorem mem_dupCall {n : Node} {c : Nat} {rest : Word} {pr : Word × Node}
    (h : pr ∈ dupCall n c rest) : ∃ c2 rest2, rest = c2 :: rest2 ∧ pr.1 = rest2 := by
  cases rest with
  | nil => simp [dupCall] at h
  | cons c2 rest2 =>
      simp only [dupCall] at h
      by_cases hc2 : c2 = c
      · rw [if_pos hc2] at h
        exact ⟨c2, rest2, rfl, mem_childCall h⟩
      · rw [if_neg hc2] at h
        simp at h

/-- Claim C9: every recursive call of the fuzzy search receives the suffix
of the query from position 1 or position 2, so the remaining word is
strictly shorter on every call; the recursion is well-founded and its depth
is bounded by the query length. -/
theorem fuzzy_calls_shorten (w : Word) (n : Node) (pr : Word × Node)
    (h : pr ∈ fuzzyCalls w n) :
    pr.1.length < w.length ∧ (pr.1 = w.tail ∨ pr.1 = w.tail.tail) := by
  cases w with
  | nil => simp [fuzzyCalls] at h
  | cons c rest =>
      have key : pr.1 = rest ∨ ∃ c2 rest2, rest = c2 :: rest2 ∧ pr.1 = rest2 := by
        simp only [fuzzyCalls] at h
        cases hg : n.getChild c with
        | some ch =>
            rw [hg] at h
            simp only [] at h
            by_cases hv : isVowel c = true
            · rw [if_pos hv] at h
              rcases List.mem_cons.mp h with h1 | h1
              · left; rw [h1]
              · simp only [List.mem_append] at h1
                rcases h1 with ((((h1 | h1) | h1) | h1) | h1) | h1
                · exact Or.inl (mem_childCall h1)
                · exact Or.inl (mem_childCall h1)
                · exact Or.inl (mem_childCall h1)
                · exact Or.inl (mem_childCall h1)
                · exact Or.inl (mem_childCall h1)
                · exact Or.inr (mem_dupCall h1)
            · rw [if_neg hv] at h
              rcases List.mem_cons.mp h with h1 | h1
              · left; rw [h1]
              · exact Or.inr (mem_dupCall h1)
        | none =>
            rw [hg] at h
            simp only [] at h
            by_cases hv : isVowel c = true
            · rw [if_pos hv] at h
              simp only [List.mem_append] at h
              rcases h with ((((h1 | h1) | h1) | h1) | h1) | h1
              · exact Or.inl (mem_childCall h1)
              · exact Or.inl (mem_childCall h1)
              · exact Or.inl (mem_childCall h1)
              · exact Or.inl (mem_childCall h1)
              · exact Or.inl (mem_childCall h1)
              · exact Or.inr (mem_dupCall h1)
            · rw [if_neg hv] at h
              simp at h
      rcases key with h1 | ⟨c2, rest2, hr2, h1⟩
      · rw [h1]
        exact ⟨by simp, Or.inl rfl⟩
      · rw [h1, hr2]
        exact ⟨by simp; omega, Or.inr rfl⟩

/-- Witness for C9 on a one-word index and the query b. -/
theorem fuzzy_calls_shorten_witness :
    ∃ pr ∈ fuzzyCalls [98] (buildTrie [[98]]).root,
      pr.1.length < ([98] : Word).length ∧
        (pr.1 = ([98] : Word).tail ∨ pr.1 = ([98] : Word).tail.tail) := by
  have hs : ((buildTrie [[98]]).root.getChild 98).isSome = true := rfl
  have hmem : fuzzyCalls [98] (buildTrie [[98]]).root =
      [([], ((buildTrie [[98]]).root.getChild 98).get hs)] := rfl
  refine ⟨([], ((buildTrie [[98]]).root.getChild 98).get hs), ?_, ?_⟩
  · rw [hmem]
    exact List.mem_singleton.mpr rfl
  · exact fuzzy_calls_shorten [98] (buildTrie [[98]]).root _
      (by rw [hmem]; exact List.mem_singleton.mpr rfl)
